import Mathlib

/-!
# sf_InfiniteNaNKiller: the repair engine

A shallow embedding of `sf_INFKillerOp::pixel_engine` (src/sf_InfiniteNaNKiller.cpp)
and the properties of it stated in the specification.

Modelling choices.

* `float` is IEEE-754 binary32, given by its three bit fields (`F32`).  Addition and
  division round to nearest, ties to even, with gradual underflow, overflow to
  infinity and signed zeros.  An arithmetic NaN result is the canonical quiet NaN;
  NaN payloads of operands are not propagated.
* `int` is a mathematical integer: `rowPos - int(m)` and friends are computed in `Int`
  without wrap-around (signed overflow is undefined in C++).
* `int(m)` truncates toward zero for every finite `m`.  For a non-finite `m` the
  conversion is undefined in C++; the model returns `-2147483648`, the value the x86
  conversion instruction produces.
* `pixels.at(x, y, z)` is an arbitrary function of the coordinate and the channel.
-/

set_option maxRecDepth 100000

namespace InfiniteNaNKiller

/-! ## binary32 -/

/-- Bit fields of an IEEE-754 binary32 value: sign, biased exponent (8 bits) and
fraction (23 bits). -/
structure F32 where
  sign : Bool
  expo : Fin 256
  mant : Fin 8388608
deriving DecidableEq

namespace F32

/-- The literal `0.0f`. -/
def posZero : F32 := ⟨false, 0, 0⟩

/-- The value `-0.0f`. -/
def negZero : F32 := ⟨true, 0, 0⟩

/-- The literal `1.0f`. -/
def one : F32 := ⟨false, 127, 0⟩

/-- Positive (`s = false`) or negative (`s = true`) infinity. -/
def infinity (s : Bool) : F32 := ⟨s, 255, 0⟩

/-- The canonical quiet NaN. -/
def qnan : F32 := ⟨false, 255, 4194304⟩

/-- Largest finite binary32 value, `FLT_MAX`. -/
def maxFinite : F32 := ⟨false, 254, 8388607⟩

/-- C `isfinite`: the exponent field is not all ones. -/
def isfinite (x : F32) : Bool := x.expo.val != 255

/-- C `isnan`: exponent all ones and a non-zero fraction. -/
def isnan (x : F32) : Bool := x.expo.val == 255 && x.mant.val != 0

/-- Either zero, `0.0f` or `-0.0f`. -/
def isZero (x : F32) : Bool := x.expo.val == 0 && x.mant.val == 0

/-- Magnitude of a finite value, in units of `2^-149` (the smallest subnormal). -/
def mag (x : F32) : Nat :=
  if x.expo.val = 0 then x.mant.val else (8388608 + x.mant.val) * 2 ^ (x.expo.val - 1)

/-- Signed value of a finite binary32, in units of `2^-149`. -/
def signedMag (x : F32) : Int := if x.sign then -(mag x : Int) else (mag x : Int)

/-- Number of low-order bits that must be dropped from `q` to leave at most 24 bits. -/
def excess : Nat → Nat → Nat
  | 0, _ => 0
  | fuel + 1, q => if q < 16777216 then 0 else excess fuel (q / 2) + 1

/-- Encode the significand `m ≤ 2^24` scaled by `2^sh` (units of `2^-149`). -/
def pack (s : Bool) (m sh : Nat) : F32 :=
  if m < 8388608 then ⟨s, 0, ⟨m % 8388608, Nat.mod_lt _ (by decide)⟩⟩
  else
    let m1 := if m < 16777216 then m else m / 2
    let e := if m < 16777216 then sh + 1 else sh + 2
    if 255 ≤ e then infinity s
    else ⟨s, ⟨e % 256, Nat.mod_lt _ (by decide)⟩,
      ⟨(m1 - 8388608) % 8388608, Nat.mod_lt _ (by decide)⟩⟩

/-- Round the non-negative rational `num / den` (units of `2^-149`) to binary32,
to nearest with ties to even, and attach the sign `s`. -/
def roundRat (s : Bool) (num den : Nat) : F32 :=
  let q := num / den
  let sh := excess q q
  let d := den * 2 ^ sh
  let f := num / d
  let r := num % d
  let m := if d < 2 * r ∨ (2 * r = d ∧ f % 2 = 1) then f + 1 else f
  pack s m sh

/-- Binary32 addition, `x + y`. -/
def add (x y : F32) : F32 :=
  if isnan x || isnan y then qnan
  else if !isfinite x then (if !isfinite y && (x.sign != y.sign) then qnan else x)
  else if !isfinite y then y
  else
    let s := signedMag x + signedMag y
    if s = 0 then ⟨x.sign && y.sign, 0, 0⟩
    else roundRat (decide (s < 0)) s.natAbs 1

/-- Unary minus. -/
def neg (x : F32) : F32 := ⟨!x.sign, x.expo, x.mant⟩

/-- Binary32 subtraction, `x - y`. -/
def sub (x y : F32) : F32 := add x (neg y)

/-- Binary32 division, `x / y`; never traps. -/
def div (x y : F32) : F32 :=
  let s := xor x.sign y.sign
  if isnan x || isnan y then qnan
  else if !isfinite x then (if !isfinite y then qnan else infinity s)
  else if !isfinite y then ⟨s, 0, 0⟩
  else if mag y = 0 then (if mag x = 0 then qnan else infinity s)
  else roundRat s (mag x * 2 ^ 149) (mag y)

/-- The conversion `int(x)`: truncation toward zero of a finite value, as a mathematical
integer.  For an infinity or a NaN (undefined in C++) the result is `-2147483648`. -/
def toInt (x : F32) : Int :=
  if isfinite x then
    (if x.sign then -((mag x / 2 ^ 149 : Nat) : Int) else ((mag x / 2 ^ 149 : Nat) : Int))
  else -2147483648

/-- Conversion of a natural number to binary32. -/
def ofNat (n : Nat) : F32 := roundRat false (n * 2 ^ 149) 1

/-- C++ `operator==` on floats: NaN equals nothing, the two zeros are equal. -/
def feq (x y : F32) : Bool :=
  !isnan x && !isnan y && (decide (x = y) || (isZero x && isZero y))

end F32

open F32

/-! ## The engine -/

/-- Channel identifier (`Channel z`). -/
abbrev Channel := Nat

/-- The two knobs of the operator. -/
structure Config where
  default_value : F32
  sampleMatrixValues : Fin 9 → F32

/-- The constructor: `default_value = 1.0f`, every matrix entry `1.0f` except the
centre, which is `0.0f`. -/
def Config.initial : Config :=
  ⟨one, fun k => if k.val = 4 then posZero else one⟩

/-- The test `!isfinite(v) || isnan(v)` applied to `value`, `temp` and `avg_temp`. -/
def invalid (v : F32) : Bool := !isfinite v || isnan v

/-- The locals `avg_temp` and `avgdenom`. -/
structure Acc where
  avg_temp : F32
  avgdenom : F32
deriving DecidableEq

/-- One `if (int(sampleMatrixValues[k]) != 0) { ... }` block.  `m` is the matrix entry
and `fetch d` is the `pixels.at(...)` call of the block as a function of `d = int(m)`. -/
def block (m : F32) (fetch : Int → F32) (s : Acc) : Acc :=
  if toInt m ≠ 0 then
    let avgdenom := add s.avgdenom one
    let temp := fetch (toInt m)
    if invalid temp then ⟨add s.avg_temp posZero, sub avgdenom one⟩
    else ⟨add s.avg_temp temp, avgdenom⟩
  else s

/-- The eight blocks of lines 110-204, in source order (3, 0, 6, 1, 7, 5, 2, 8). -/
def sampleAll (cfg : Config) (pixels : Int → Int → Channel → F32)
    (rowPos y : Int) (z : Channel) : Acc :=
  let m := cfg.sampleMatrixValues
  let s0 : Acc := ⟨posZero, posZero⟩
  let s1 := block (m 3) (fun d => pixels (rowPos - d) y z) s0
  let s2 := block (m 0) (fun d => pixels (rowPos - d) (y - d) z) s1
  let s3 := block (m 6) (fun d => pixels (rowPos - d) (y + d) z) s2
  let s4 := block (m 1) (fun d => pixels rowPos (y - d) z) s3
  let s5 := block (m 7) (fun d => pixels rowPos (y + d) z) s4
  let s6 := block (m 5) (fun d => pixels (rowPos + d) y z) s5
  let s7 := block (m 2) (fun d => pixels (rowPos + d) (y - d) z) s6
  block (m 8) (fun d => pixels (rowPos + d) (y + d) z) s7

/-- Lines 206-211: `avg_temp /= avgdenom`, then the fallback to `default_value`. -/
def finish (cfg : Config) (s : Acc) : F32 :=
  let avg_temp := div s.avg_temp s.avgdenom
  if invalid avg_temp then cfg.default_value else avg_temp

/-- Body of the `while` loop for one sample `value` at column `rowPos`: the value
written to `*channelOut`. -/
def repairSample (cfg : Config) (pixels : Int → Int → Channel → F32)
    (y : Int) (z : Channel) (rowPos : Int) (value : F32) : F32 :=
  if invalid value then finish cfg (sampleAll cfg pixels rowPos y z) else value

/-- The `while (channelIn < END)` loop over the samples of one channel, starting at
column `rowPos`. -/
def repair (cfg : Config) (pixels : Int → Int → Channel → F32) (y : Int) (z : Channel) :
    Int → List F32 → List F32
  | _, [] => []
  | rowPos, value :: rest =>
    repairSample cfg pixels y z rowPos value :: repair cfg pixels y z (rowPos + 1) rest

/-- The whole engine: `foreach (z, channels)` runs the loop on the samples `inRow z` of
columns `x .. r-1` and writes them to the output row; other channels of `out` are
left alone. -/
def pixel_engine (cfg : Config) (pixels : Int → Int → Channel → F32)
    (inRow : Channel → List F32) (y x : Int) (channels : List Channel)
    (out : Channel → List F32) : Channel → List F32 :=
  channels.foldl (fun o z => Function.update o z (repair cfg pixels y z x (inRow z))) out

/-! ## Vocabulary of the specification -/

/-- The eight directions in the order the source visits them. -/
def order : List (Fin 9) := [3, 0, 6, 1, 7, 5, 2, 8]

/-- Coordinate the source passes to `pixels.at` for direction `k` with offset `d`. -/
def nbrCoord (k : Fin 9) (d col row : Int) : Int × Int :=
  match k.val with
  | 0 => (col - d, row - d)
  | 1 => (col, row - d)
  | 2 => (col + d, row - d)
  | 3 => (col - d, row)
  | 5 => (col + d, row)
  | 6 => (col - d, row + d)
  | 7 => (col, row + d)
  | 8 => (col + d, row + d)
  | _ => (col, row)

/-- Direction table as printed in section 4.1 of the specification. -/
def specCoord (k : Fin 9) (d col row : Int) : Int × Int :=
  match k.val with
  | 0 => (col - d, row - d)
  | 1 => (col - d, row)
  | 2 => (col + d, row - d)
  | 3 => (col - d, row)
  | 5 => (col + d, row)
  | 6 => (col - d, row + d)
  | 7 => (col, row + d)
  | 8 => (col + d, row + d)
  | _ => (col, row)

/-- Neighbour value the source reads for direction `k` of the sample at `(col, row)`. -/
def neighbour (cfg : Config) (pixels : Int → Int → Channel → F32)
    (col row : Int) (z : Channel) (k : Fin 9) : F32 :=
  pixels (nbrCoord k (toInt (cfg.sampleMatrixValues k)) col row).1
    (nbrCoord k (toInt (cfg.sampleMatrixValues k)) col row).2 z

/-- The set E of the specification: directions whose entry has `int(m) != 0`. -/
def enabledDirs (cfg : Config) : List (Fin 9) :=
  order.filter (fun k => decide (toInt (cfg.sampleMatrixValues k) ≠ 0))

/-- The set V of the specification: enabled directions whose neighbour is valid. -/
def validDirs (cfg : Config) (pixels : Int → Int → Channel → F32)
    (col row : Int) (z : Channel) : List (Fin 9) :=
  (enabledDirs cfg).filter (fun k => !invalid (neighbour cfg pixels col row z k))

/-- Sum of the neighbour values over V, accumulated from `0.0f`. -/
def validSum (cfg : Config) (pixels : Int → Int → Channel → F32)
    (col row : Int) (z : Channel) : F32 :=
  ((validDirs cfg pixels col row z).map (neighbour cfg pixels col row z)).foldl add posZero

/-- The quotient `sum over V / |V|`. -/
def validMean (cfg : Config) (pixels : Int → Int → Channel → F32)
    (col row : Int) (z : Channel) : F32 :=
  div (validSum cfg pixels col row z) (ofNat (validDirs cfg pixels col row z).length)

/-- A matrix with the single entry `k` set to `m` and every other entry `0.0f`. -/
def onlyEntry (k : Fin 9) (m : F32) : Fin 9 → F32 :=
  fun j => if j = k then m else posZero

/-- The block of direction `k` for the sample at `(col, row)`, as a step on the locals. -/
def stepDir (cfg : Config) (pixels : Int → Int → Channel → F32)
    (col row : Int) (z : Channel) (s : Acc) (k : Fin 9) : Acc :=
  block (cfg.sampleMatrixValues k)
    (fun d => pixels (nbrCoord k d col row).1 (nbrCoord k d col row).2 z) s

/-- The value the specification assigns to an invalid sample at `(col, row)`: the
mean over V when V is non-empty and the mean is finite, `default_value` otherwise. -/
def specRepaired (cfg : Config) (pixels : Int → Int → Channel → F32)
    (col row : Int) (z : Channel) : F32 :=
  if 0 < (validDirs cfg pixels col row z).length ∧
      invalid (validMean cfg pixels col row z) = false then
    validMean cfg pixels col row z
  else cfg.default_value

/-! ## Concrete scenarios of the specification -/

/-- The row `[1.0, NaN, 3.0, 4.0, 5.0]` of section 8. -/
def exRow : List F32 := [one, qnan, ofNat 3, ofNat 4, ofNat 5]

/-- A neighbour accessor reading `exRow` on every row and channel, and returning the
sentinel NaN outside columns `0 .. 4`. -/
def exPixels : Int → Int → Channel → F32 :=
  fun x _ _ => if x < 0 then qnan else (exRow[x.toNat]?).getD qnan

/-- Only E (index 5) and W (index 3) set to `1.0f`, `default_value = 9.0f`. -/
def exConfigEW : Config :=
  ⟨ofNat 9, fun k => if k.val = 3 ∨ k.val = 5 then one else posZero⟩

/-- Only W (index 3) set to `1.0f`, `default_value = 9.0f`. -/
def exConfigW : Config := ⟨ofNat 9, onlyEntry 3 one⟩

/-- The value `0.5f`. -/
def half : F32 := ⟨false, 126, 0⟩

/-- Only N (index 1) set to `1.0f`, `default_value = 9.0f`. -/
def exConfigN : Config := ⟨ofNat 9, onlyEntry 1 one⟩

/-- Only W (index 3) set to `0.5f`, `default_value = 9.0f`. -/
def exConfigHalf : Config := ⟨ofNat 9, onlyEntry 3 half⟩

/-- An image holding `5.0` at `(-1, 0)`, `7.0` at `(0, -1)` and NaN elsewhere. -/
def exCross : Int → Int → Channel → F32 :=
  fun x y _ => if x = -1 ∧ y = 0 then ofNat 5 else if x = 0 ∧ y = -1 then ofNat 7 else qnan

/-- An image holding `FLT_MAX` everywhere. -/
def exHuge : Int → Int → Channel → F32 := fun _ _ _ => maxFinite

/-- An image holding `1.0` everywhere. -/
def exOnes : Int → Int → Channel → F32 := fun _ _ _ => one

/-- The eight offsets `(dx, dy)` with `dx, dy` in `-1, 0, 1` other than `(0, 0)`, listed
in the order the source visits the corresponding directions. -/
def offsets8 : List (Int × Int) :=
  [(-1, 0), (-1, -1), (-1, 1), (0, -1), (0, 1), (1, 0), (1, -1), (1, 1)]

/-- Values of the pixels surrounding `(col, row)` at the offsets `offsets8`. -/
def ring8 (pixels : Int → Int → Channel → F32) (col row : Int) (z : Channel) : List F32 :=
  offsets8.map (fun o => pixels (col + o.1) (row + o.2) z)

/-- The valid ones among the eight surrounding values. -/
def ring8Valid (pixels : Int → Int → Channel → F32) (col row : Int) (z : Channel) :
    List F32 :=
  (ring8 pixels col row z).filter (fun v => !invalid v)

/-- Single-precision mean of the valid surrounding values, summed from `0.0f`. -/
def ring8Mean (pixels : Int → Int → Channel → F32) (col row : Int) (z : Channel) : F32 :=
  div ((ring8Valid pixels col row z).foldl add posZero)
    (ofNat (ring8Valid pixels col row z).length)

/-- The value `1.9f`. -/
def onePointNine : F32 := ⟨false, 127, 7549747⟩

/-- The value `-0.9f`. -/
def negPointNine : F32 := ⟨true, 126, 6710886⟩

/-- Entries `1.9f` (W), `0.5f` (E) and `-0.9f` (S), `default_value = 9.0f`. -/
def exConfigFrac : Config :=
  ⟨ofNat 9, fun k => if k.val = 3 then onePointNine else if k.val = 5 then half
    else if k.val = 7 then negPointNine else posZero⟩

/-- Entries `1.0f` (W), `0.0f` (E) and `0.0f` (S), `default_value = 9.0f`: the
truncations of `exConfigFrac`. -/
def exConfigTrunc : Config := ⟨ofNat 9, onlyEntry 3 one⟩

/-- All direction entries zero and a NaN `default_value`. -/
def exConfigNaNDefault : Config := ⟨qnan, fun _ => posZero⟩

/-! ## Lemmas on binary32 arithmetic -/

theorem excess_of_lt (fuel q : Nat) (h : q < 16777216) : excess fuel q = 0 := by
  cases fuel <;> simp [excess, h]

theorem excess_normal (e : Nat) : ∀ fuel M : Nat, 8388608 ≤ M → M < 16777216 → e < fuel →
    excess fuel (M * 2 ^ e) = e := by
  induction e with
  | zero =>
    intro fuel M _ h2 _
    simpa using excess_of_lt fuel M h2
  | succ e ih =>
    intro fuel M h1 h2 h3
    obtain ⟨f, rfl⟩ : ∃ f, fuel = f + 1 := ⟨fuel - 1, by omega⟩
    have hpos : 0 < 2 ^ e := by positivity
    have hbig : ¬ M * 2 ^ (e + 1) < 16777216 := by
      rw [pow_succ]; nlinarith
    have hhalf : M * 2 ^ (e + 1) / 2 = M * 2 ^ e := by
      rw [pow_succ, ← Nat.mul_assoc]; exact Nat.mul_div_cancel _ (by decide)
    simp only [excess, hbig, if_false, hhalf]
    rw [ih f M h1 h2 (by omega)]

theorem excess_spec (fuel : Nat) : ∀ q : Nat, q ≤ fuel →
    q / 2 ^ excess fuel q < 16777216 ∧
      (excess fuel q = 0 ∨ 8388608 ≤ q / 2 ^ excess fuel q) := by
  induction fuel with
  | zero =>
    intro q hq
    have : q = 0 := by omega
    subst this
    simp [excess]
  | succ f ih =>
    intro q hq
    by_cases h : q < 16777216
    · simp [excess, h]
    · have hq2 : q / 2 ≤ f := by omega
      obtain ⟨h1, h2⟩ := ih (q / 2) hq2
      have hdiv : q / 2 ^ (excess f (q / 2) + 1) = q / 2 / 2 ^ excess f (q / 2) := by
        rw [pow_succ, Nat.mul_comm, Nat.div_div_eq_div_mul]
      simp only [excess, h, if_false, hdiv]
      refine ⟨h1, Or.inr ?_⟩
      rcases h2 with h2 | h2
      · rw [h2]; simp; omega
      · exact h2

theorem roundRat_mag (x : F32) (h : isfinite x = true) (s : Bool) :
    roundRat s (mag x) 1 = ⟨s, x.expo, x.mant⟩ := by
  obtain ⟨sg, ⟨e, he⟩, ⟨m, hm⟩⟩ := x
  simp only [isfinite, bne_iff_ne, ne_eq] at h
  by_cases h0 : e = 0
  · subst h0
    have hex : excess m m = 0 := excess_of_lt m m (by omega)
    have hlt : m < 8388608 := hm
    simp [roundRat, mag, hex, pack, hlt, Nat.mod_eq_of_lt hlt, Nat.mod_one]
  · obtain ⟨k, rfl⟩ : ∃ k, e = k + 1 := ⟨e - 1, by omega⟩
    have hk : k + 1 < 255 := by omega
    have hM1 : 8388608 ≤ 8388608 + m := by omega
    have hM2 : 8388608 + m < 16777216 := by omega
    have hpos : 0 < 2 ^ k := by positivity
    have hkq : k < (8388608 + m) * 2 ^ k := by
      have := Nat.lt_two_pow k
      nlinarith
    have hex := excess_normal k _ (8388608 + m) hM1 hM2 hkq
    have hmag : mag ⟨sg, ⟨k + 1, he⟩, ⟨m, hm⟩⟩ = (8388608 + m) * 2 ^ k := by
      simp [mag]
    rw [hmag]
    simp only [roundRat, Nat.div_one, hex, Nat.one_mul, Nat.mul_div_cancel _ hpos,
      Nat.mul_mod_left]
    have hc : ¬ (2 ^ k < 2 * 0 ∨ 2 * 0 = 2 ^ k ∧ (8388608 + m) % 2 = 1) := by
      omega
    simp only [hc, if_false, pack]
    have h1 : ¬ (8388608 + m < 8388608) := by omega
    have h2 : ¬ (255 ≤ k + 1) := by omega
    simp only [h1, hM2, h2, if_true, if_false]
    have h3 : (k + 1) % 256 = k + 1 := Nat.mod_eq_of_lt he
    have h4 : (8388608 + m - 8388608) % 8388608 = m := by
      rw [Nat.add_sub_cancel_left]; exact Nat.mod_eq_of_lt hm
    simp [h3, h4, hm]

theorem roundRat_scale (s : Bool) (n c : Nat) (hc : 0 < c) :
    roundRat s (n * c) c = roundRat s n 1 := by
  have hq : n * c / c = n := Nat.mul_div_cancel n hc
  simp only [roundRat, hq, Nat.div_one, Nat.one_mul]
  generalize excess n n = sh
  have hf : n * c / (c * 2 ^ sh) = n / 2 ^ sh := by
    rw [Nat.mul_comm c (2 ^ sh)]; exact Nat.mul_div_mul_right n (2 ^ sh) hc
  have hr : n * c % (c * 2 ^ sh) = n % 2 ^ sh * c := by
    rw [Nat.mul_comm c (2 ^ sh)]; exact Nat.mul_mod_mul_right c n (2 ^ sh)
  rw [hf, hr]
  generalize n % 2 ^ sh = r
  generalize 2 ^ sh = p
  have h1 : (c * p < 2 * (r * c)) ↔ (p < 2 * r) := by
    constructor
    · intro h; by_contra h'; push_neg at h'
      have := Nat.mul_le_mul_left c h'
      nlinarith
    · intro h
      have := Nat.mul_lt_mul_of_pos_left h hc
      nlinarith
  have h2 : (2 * (r * c) = c * p) ↔ (2 * r = p) := by
    constructor
    · intro h
      have h' : (2 * r) * c = p * c := by nlinarith
      exact Nat.eq_of_mul_eq_mul_right hc h'
    · intro h
      rw [← h]; ring
  simp only [h1, h2]

theorem pack_isnan (s : Bool) (m sh : Nat) : isnan (pack s m sh) = false := by
  unfold pack
  by_cases h1 : m < 8388608
  · simp [h1, isnan]
  · by_cases h2 : m < 16777216
    · by_cases h3 : 255 ≤ sh + 1
      · simp [h1, h2, h3, infinity, isnan]
      · have : (sh + 1) % 256 ≠ 255 := by omega
        simp [h1, h2, h3, isnan, this]
    · by_cases h3 : 255 ≤ sh + 2
      · simp [h1, h2, h3, infinity, isnan]
      · have : (sh + 2) % 256 ≠ 255 := by omega
        simp [h1, h2, h3, isnan, this]

theorem pack_isZero (s : Bool) (m sh : Nat) (h : isZero (pack s m sh) = true) : m = 0 := by
  unfold pack at h
  by_cases h1 : m < 8388608
  · simp [h1, isZero, Nat.mod_eq_of_lt h1] at h
    exact h
  · exfalso
    by_cases h2 : m < 16777216
    · by_cases h3 : 255 ≤ sh + 1
      · simp [h1, h2, h3, infinity, isZero] at h
        exact absurd h (by decide)
      · have : (sh + 1) % 256 ≠ 0 := by omega
        simp [h1, h2, h3, isZero, this] at h
    · by_cases h3 : 255 ≤ sh + 2
      · simp [h1, h2, h3, infinity, isZero] at h
        exact absurd h (by decide)
      · have : (sh + 2) % 256 ≠ 0 := by omega
        simp [h1, h2, h3, isZero, this] at h

theorem roundRat_isnan (s : Bool) (num den : Nat) : isnan (roundRat s num den) = false := by
  simp only [roundRat]
  exact pack_isnan _ _ _

theorem roundRat_isZero (s : Bool) (n : Nat) (hn : 1 ≤ n) :
    isZero (roundRat s n 1) = false := by
  cases hz : isZero (roundRat s n 1) with
  | false => rfl
  | true =>
    exfalso
    simp only [roundRat, Nat.div_one, Nat.one_mul] at hz
    have hm := pack_isZero _ _ _ hz
    obtain ⟨h1, h2⟩ := excess_spec n n (Nat.le_refl n)
    have hf : n / 2 ^ excess n n = 0 := by
      generalize n / 2 ^ excess n n = f at hm
      split at hm <;> omega
    rcases h2 with h2 | h2
    · rw [h2] at hf; simp at hf; omega
    · omega

theorem mag_eq_zero (x : F32) (h : mag x = 0) : x = ⟨x.sign, 0, 0⟩ := by
  obtain ⟨sg, ⟨e, he⟩, ⟨m, hm⟩⟩ := x
  by_cases h0 : e = 0
  · subst h0
    simp [mag] at h
    subst h
    rfl
  · exfalso
    have hpos : 0 < 2 ^ (e - 1) := by positivity
    simp only [mag, h0, if_false] at h
    have : 0 < (8388608 + m) * 2 ^ (e - 1) := Nat.mul_pos (by omega) hpos
    omega

theorem roundRat_signedMag (x : F32) (h : isfinite x = true) (hz : signedMag x ≠ 0) :
    roundRat (decide (signedMag x < 0)) (signedMag x).natAbs 1 = x := by
  cases hs : x.sign with
  | false =>
    have h1 : signedMag x = (mag x : Int) := by simp [signedMag, hs]
    have h2 : decide (signedMag x < 0) = false := by rw [h1]; simp
    rw [h2, h1, Int.natAbs_ofNat, roundRat_mag x h, ← hs]
  | true =>
    have h1 : signedMag x = -(mag x : Int) := by simp [signedMag, hs]
    have h2 : decide (signedMag x < 0) = true := by
      rw [h1] at hz ⊢
      simp only [decide_eq_true_eq]
      omega
    rw [h2, h1, Int.natAbs_neg, Int.natAbs_ofNat, roundRat_mag x h, ← hs]

theorem signedMag_eq_zero (x : F32) (h : signedMag x = 0) : mag x = 0 := by
  unfold signedMag at h
  split at h <;> omega

theorem add_posZero (x : F32) (hn : isnan x = false) (hz : x ≠ negZero) :
    add x posZero = x := by
  have hp1 : isnan posZero = false := by decide
  have hp2 : isfinite posZero = true := by decide
  have hp3 : signedMag posZero = 0 := by decide
  cases hf : isfinite x with
  | false => simp [add, hn, hp1, hp2, hf]
  | true =>
    simp only [add, hn, hp1, hp2, hf, hp3, Int.add_zero, Bool.or_self, Bool.not_true,
      Bool.false_eq_true, if_false]
    by_cases h0 : signedMag x = 0
    · have hx := mag_eq_zero x (signedMag_eq_zero x h0)
      simp only [h0, if_true]
      cases hs : x.sign with
      | false => rw [hx, hs]; rfl
      | true => rw [hs] at hx; exact absurd hx hz
    · simp only [h0, if_false]
      exact roundRat_signedMag x hf h0

theorem posZero_add (x : F32) (hf : isfinite x = true) (hz : x ≠ negZero) :
    add posZero x = x := by
  have hp1 : isnan posZero = false := by decide
  have hp2 : isfinite posZero = true := by decide
  have hp3 : signedMag posZero = 0 := by decide
  have hn : isnan x = false := by
    simp only [isfinite, bne_iff_ne, ne_eq] at hf
    simp [isnan, hf]
  simp only [add, hn, hp1, hp2, hf, hp3, Int.zero_add, Bool.or_self, Bool.not_true,
    Bool.false_eq_true, if_false]
  by_cases h0 : signedMag x = 0
  · have hx := mag_eq_zero x (signedMag_eq_zero x h0)
    simp only [h0, if_true]
    cases hs : x.sign with
    | false => rw [hx, hs]; rfl
    | true => rw [hs] at hx; exact absurd hx hz
  · simp only [h0, if_false]
    exact roundRat_signedMag x hf h0

theorem isnan_of_isfinite (x : F32) (hf : isfinite x = true) : isnan x = false := by
  simp only [isfinite, bne_iff_ne, ne_eq] at hf
  simp [isnan, hf]

theorem add_isnan (x y : F32) (hx : isnan x = false) (hy : isfinite y = true) :
    isnan (add x y) = false := by
  have hyn := isnan_of_isfinite y hy
  cases hf : isfinite x with
  | false => simp [add, hx, hyn, hf, hy]
  | true =>
    simp only [add, hx, hyn, hf, hy, Bool.or_self, Bool.not_true, Bool.false_eq_true, if_false]
    split
    · simp [isnan]
    · exact roundRat_isnan _ _ _

theorem add_ne_negZero (x y : F32) (hx : isnan x = false) (hy : isfinite y = true)
    (hz : x ≠ negZero) : add x y ≠ negZero := by
  have hyn := isnan_of_isfinite y hy
  cases hf : isfinite x with
  | false =>
    simp only [add, hx, hyn, hf, hy, Bool.or_self, Bool.not_true, Bool.false_eq_true,
      if_false, Bool.not_false, if_true, Bool.false_and]
    exact hz
  | true =>
    simp only [add, hx, hyn, hf, hy, Bool.or_self, Bool.not_true, Bool.false_eq_true, if_false]
    split
    · rename_i h0
      intro hEq
      have hs : x.sign = true ∧ y.sign = true := by
        have := congrArg F32.sign hEq
        simpa [negZero] using this
      have hsx := hs.1
      have hm : mag x = 0 := by
        simp only [signedMag, hs.1, hs.2, if_true] at h0
        omega
      have hx0 := mag_eq_zero x hm
      rw [hsx] at hx0
      exact hz hx0
    · rename_i h0
      intro hEq
      have := roundRat_isZero (decide (signedMag x + signedMag y < 0)) (signedMag x + signedMag y).natAbs (by omega)
      rw [hEq] at this
      exact absurd this (by decide)

theorem div_one (x : F32) (hf : isfinite x = true) : div x one = x := by
  have hn := isnan_of_isfinite x hf
  have h1 : isnan one = false := by decide
  have h2 : isfinite one = true := by decide
  have h3 : mag one = 2 ^ 149 := by decide
  have h4 : one.sign = false := rfl
  simp only [div, hn, h1, h2, hf, h3, h4, Bool.or_self, Bool.not_true, Bool.false_eq_true,
    if_false, Bool.xor_false]
  have h5 : ¬ ((2 : Nat) ^ 149 = 0) := by positivity
  simp only [h5, if_false]
  rw [roundRat_scale _ _ _ (by positivity), roundRat_mag x hf]

theorem ofNat_succ (c : Nat) (h : c < 8) : add (ofNat c) one = ofNat (c + 1) := by
  interval_cases c <;> decide

theorem ofNat_pred (c : Nat) (h : c < 8) : sub (ofNat (c + 1)) one = ofNat c := by
  interval_cases c <;> decide

/-! ## Lemmas on the engine -/

theorem repair_length (cfg : Config) (pixels : Int → Int → Channel → F32) (y : Int)
    (z : Channel) (row : List F32) : ∀ x : Int, (repair cfg pixels y z x row).length = row.length := by
  induction row with
  | nil => intro x; rfl
  | cons v rest ih => intro x; simp [repair, ih]

theorem repair_getElem? (cfg : Config) (pixels : Int → Int → Channel → F32) (y : Int)
    (z : Channel) (row : List F32) : ∀ (x : Int) (i : Nat),
    (repair cfg pixels y z x row)[i]? =
      (row[i]?).map (repairSample cfg pixels y z (x + i)) := by
  induction row with
  | nil => intro x i; simp [repair]
  | cons v rest ih =>
    intro x i
    cases i with
    | zero => simp [repair]
    | succ i =>
      simp only [repair, List.getElem?_cons_succ, ih]
      have : x + 1 + (i : Int) = x + ((i + 1 : Nat) : Int) := by push_cast; ring
      rw [this]

theorem sampleAll_eq_foldl (cfg : Config) (pixels : Int → Int → Channel → F32)
    (col row : Int) (z : Channel) :
    sampleAll cfg pixels col row z =
      order.foldl (stepDir cfg pixels col row z) ⟨posZero, posZero⟩ := rfl

theorem foldl_stepDir (cfg : Config) (pixels : Int → Int → Channel → F32)
    (col row : Int) (z : Channel) (l : List (Fin 9)) :
    ∀ (acc : F32) (c : Nat), isnan acc = false → acc ≠ negZero → c + l.length ≤ 8 →
      l.foldl (stepDir cfg pixels col row z) ⟨acc, ofNat c⟩ =
        ⟨(((l.filter (fun k => decide (toInt (cfg.sampleMatrixValues k) ≠ 0))).filter
            (fun k => !invalid (neighbour cfg pixels col row z k))).map
              (neighbour cfg pixels col row z)).foldl add acc,
          ofNat (c + ((l.filter (fun k => decide (toInt (cfg.sampleMatrixValues k) ≠ 0))).filter
            (fun k => !invalid (neighbour cfg pixels col row z k))).length)⟩ := by
  induction l with
  | nil => intro acc c _ _ _; rfl
  | cons k l ih =>
    intro acc c hn hz hc
    simp only [List.length_cons] at hc
    simp only [List.foldl_cons]
    by_cases hen : toInt (cfg.sampleMatrixValues k) = 0
    · have hstep : stepDir cfg pixels col row z ⟨acc, ofNat c⟩ k = ⟨acc, ofNat c⟩ := by
        simp [stepDir, block, hen]
      rw [hstep, ih acc c hn hz (by omega)]
      simp [List.filter_cons, hen]
    · cases hv : invalid (neighbour cfg pixels col row z k) with
      | true =>
        have hstep : stepDir cfg pixels col row z ⟨acc, ofNat c⟩ k = ⟨acc, ofNat c⟩ := by
          have hv2 : invalid (pixels
              (nbrCoord k (toInt (cfg.sampleMatrixValues k)) col row).1
              (nbrCoord k (toInt (cfg.sampleMatrixValues k)) col row).2 z) = true := hv
          simp only [stepDir, block, hen, ne_eq, not_false_eq_true, if_true, hv2]
          rw [add_posZero acc hn hz, ofNat_succ c (by omega), ofNat_pred c (by omega)]
        rw [hstep, ih acc c hn hz (by omega)]
        simp [List.filter_cons, hen, hv]
      | false =>
        have hstep : stepDir cfg pixels col row z ⟨acc, ofNat c⟩ k =
            ⟨add acc (neighbour cfg pixels col row z k), ofNat (c + 1)⟩ := by
          have hv2 : invalid (pixels
              (nbrCoord k (toInt (cfg.sampleMatrixValues k)) col row).1
              (nbrCoord k (toInt (cfg.sampleMatrixValues k)) col row).2 z) = false := hv
          simp only [stepDir, block, hen, ne_eq, not_false_eq_true, if_true, hv2,
            Bool.false_eq_true, if_false]
          rw [ofNat_succ c (by omega)]
          rfl
        have hfin : isfinite (neighbour cfg pixels col row z k) = true := by
          simp only [invalid, Bool.or_eq_false_iff, Bool.not_eq_false'] at hv
          exact hv.1
        rw [hstep, ih _ (c + 1) (add_isnan _ _ hn hfin) (add_ne_negZero _ _ hn hfin hz) (by omega)]
        simp [List.filter_cons, hen, hv, Nat.add_assoc, Nat.add_comm 1]

theorem sampleAll_eq (cfg : Config) (pixels : Int → Int → Channel → F32)
    (col row : Int) (z : Channel) :
    sampleAll cfg pixels col row z =
      ⟨validSum cfg pixels col row z, ofNat (validDirs cfg pixels col row z).length⟩ := by
  rw [sampleAll_eq_foldl]
  have h := foldl_stepDir cfg pixels col row z order posZero 0 (by decide) (by decide)
    (by decide)
  have h0 : ofNat 0 = posZero := by decide
  rw [h0] at h
  rw [h]
  simp [validSum, validDirs, enabledDirs]

theorem finish_sampleAll (cfg : Config) (pixels : Int → Int → Channel → F32)
    (col row : Int) (z : Channel) :
    finish cfg (sampleAll cfg pixels col row z) = specRepaired cfg pixels col row z := by
  rw [sampleAll_eq]
  simp only [finish, specRepaired]
  by_cases h0 : (validDirs cfg pixels col row z).length = 0
  · have hs : validSum cfg pixels col row z = posZero := by
      simp only [validSum]
      rw [List.length_eq_zero.mp h0]
      rfl
    have hq : validMean cfg pixels col row z = qnan := by
      simp only [validMean, hs, h0]
      decide
    have hq2 : div (validSum cfg pixels col row z)
        (ofNat (validDirs cfg pixels col row z).length) = qnan := hq
    have hi : invalid qnan = true := by decide
    rw [hq2, hq]
    simp [h0, hi]
  · have hpos : 0 < (validDirs cfg pixels col row z).length := Nat.pos_of_ne_zero h0
    have hq2 : div (validSum cfg pixels col row z)
        (ofNat (validDirs cfg pixels col row z).length) = validMean cfg pixels col row z := rfl
    rw [hq2]
    cases hv : invalid (validMean cfg pixels col row z) <;> simp [hpos]

theorem isZero_toInt (m : F32) (h : isZero m = true) : toInt m = 0 := by
  obtain ⟨sg, ⟨e, he⟩, ⟨f, hf⟩⟩ := m
  simp only [isZero, Bool.and_eq_true, beq_iff_eq] at h
  obtain ⟨h1, h2⟩ := h
  subst h1; subst h2
  cases sg <;> simp [toInt, isfinite, mag]

theorem specRepaired_of_nil (cfg : Config) (pixels : Int → Int → Channel → F32)
    (col row : Int) (z : Channel)
    (h : ∀ j ∈ order, toInt (cfg.sampleMatrixValues j) = 0 ∨
      invalid (neighbour cfg pixels col row z j) = true) :
    specRepaired cfg pixels col row z = cfg.default_value := by
  have hnil : validDirs cfg pixels col row z = [] := by
    simp only [validDirs, enabledDirs, List.filter_filter, List.filter_eq_nil_iff]
    intro j hj
    rcases h j hj with h1 | h1 <;> simp [h1]
  simp [specRepaired, hnil]

theorem order_ne_centre (j : Fin 9) (hj : j ∈ order) : j ≠ 4 := by
  revert j; decide

theorem repairSample_valid (cfg : Config) (pixels : Int → Int → Channel → F32)
    (y : Int) (z : Channel) (rowPos : Int) (value : F32)
    (hd : invalid cfg.default_value = false) :
    invalid (repairSample cfg pixels y z rowPos value) = false := by
  unfold repairSample
  cases hv : invalid value with
  | false => simpa using hv
  | true =>
    simp only [if_true, finish]
    cases hq : invalid (div (sampleAll cfg pixels rowPos y z).avg_temp
      (sampleAll cfg pixels rowPos y z).avgdenom) with
    | false => simpa using hq
    | true => simpa using hd

theorem repairSample_of_valid (cfg : Config) (pixels : Int → Int → Channel → F32)
    (y : Int) (z : Channel) (rowPos : Int) (value : F32) (hv : invalid value = false) :
    repairSample cfg pixels y z rowPos value = value := by
  simp [repairSample, hv]

theorem repairSample_of_invalid (cfg : Config) (pixels : Int → Int → Channel → F32)
    (y : Int) (z : Channel) (rowPos : Int) (value : F32) (hv : invalid value = true) :
    repairSample cfg pixels y z rowPos value = specRepaired cfg pixels rowPos y z := by
  simp [repairSample, hv, finish_sampleAll]

theorem count_order (k : Fin 9) (hk : k ≠ 4) : List.count k order = 1 := by
  revert k; decide

theorem enabledDirs_single (cfg : Config) (k : Fin 9) (hk : k ≠ 4)
    (hen : toInt (cfg.sampleMatrixValues k) ≠ 0)
    (hoff : ∀ j : Fin 9, j ≠ k → j ≠ 4 → toInt (cfg.sampleMatrixValues j) = 0) :
    enabledDirs cfg = [k] := by
  have hcongr : order.filter (fun j => decide (toInt (cfg.sampleMatrixValues j) ≠ 0)) =
      order.filter (fun j => j == k) := by
    apply List.filter_congr
    intro j hj
    by_cases hjk : j = k
    · subst hjk; simp [hen]
    · simp [hjk, hoff j hjk (order_ne_centre j hj)]
  rw [enabledDirs, hcongr, List.filter_beq, count_order k hk]
  rfl

theorem specRepaired_single (cfg : Config) (pixels : Int → Int → Channel → F32)
    (col row : Int) (z : Channel) (k : Fin 9) (hk : k ≠ 4)
    (hen : toInt (cfg.sampleMatrixValues k) ≠ 0)
    (hoff : ∀ j : Fin 9, j ≠ k → j ≠ 4 → toInt (cfg.sampleMatrixValues j) = 0) :
    specRepaired cfg pixels col row z =
      if invalid (neighbour cfg pixels col row z k) then cfg.default_value
      else add posZero (neighbour cfg pixels col row z k) := by
  cases hv : invalid (neighbour cfg pixels col row z k) with
  | true =>
    simp only [if_true]
    apply specRepaired_of_nil
    intro j hj
    by_cases hjk : j = k
    · subst hjk; exact Or.inr hv
    · exact Or.inl (hoff j hjk (order_ne_centre j hj))
  | false =>
    have hfin : isfinite (neighbour cfg pixels col row z k) = true := by
      simp only [invalid, Bool.or_eq_false_iff, Bool.not_eq_false'] at hv
      exact hv.1
    have hV : validDirs cfg pixels col row z = [k] := by
      simp [validDirs, enabledDirs_single cfg k hk hen hoff, List.filter_cons, hv]
    have h1 : ofNat 1 = one := by decide
    have hsumfin : isfinite (add posZero (neighbour cfg pixels col row z k)) = true := by
      by_cases hz : neighbour cfg pixels col row z k = negZero
      · rw [hz]; decide
      · rw [posZero_add _ hfin hz]; exact hfin
    have hmean : validMean cfg pixels col row z =
        add posZero (neighbour cfg pixels col row z k) := by
      simp only [validMean, validSum, hV, List.map_cons, List.map_nil, List.foldl_cons,
        List.foldl_nil, List.length_singleton, h1]
      exact div_one _ hsumfin
    have hmv : invalid (add posZero (neighbour cfg pixels col row z k)) = false := by
      simp [invalid, hsumfin, isnan_of_isfinite _ hsumfin]
    simp [specRepaired, hV, hmean, hmv]

theorem nbrCoord_eq_specCoord (k : Fin 9) (hk : k ≠ 1) (d col row : Int) :
    nbrCoord k d col row = specCoord k d col row := by
  fin_cases k <;> first | rfl | exact absurd rfl hk

theorem posZero_add_feq (v : F32) (hv : invalid v = false) :
    feq (add posZero v) v = true ∧ (v ≠ negZero → add posZero v = v) := by
  have hfin : isfinite v = true := by
    simp only [invalid, Bool.or_eq_false_iff, Bool.not_eq_false'] at hv
    exact hv.1
  by_cases hz : v = negZero
  · subst hz; exact ⟨by decide, fun h => absurd rfl h⟩
  · have h := posZero_add v hfin hz
    refine ⟨?_, fun _ => h⟩
    rw [h]
    simp [feq, isnan_of_isfinite v hfin]

theorem enabledDirs_pair (cfg : Config)
    (h3 : toInt (cfg.sampleMatrixValues 3) ≠ 0) (h5 : toInt (cfg.sampleMatrixValues 5) ≠ 0)
    (hoff : ∀ j : Fin 9, j ≠ 3 → j ≠ 5 → j ≠ 4 → toInt (cfg.sampleMatrixValues j) = 0) :
    enabledDirs cfg = [3, 5] := by
  have hcongr : order.filter (fun j => decide (toInt (cfg.sampleMatrixValues j) ≠ 0)) =
      order.filter (fun j => j == 3 || j == 5) := by
    apply List.filter_congr
    intro j hj
    by_cases hj3 : j = 3
    · subst hj3; simp [h3]
    · by_cases hj5 : j = 5
      · subst hj5; simp [h5]
      · simp [hj3, hj5, hoff j hj3 hj5 (order_ne_centre j hj)]
  rw [enabledDirs, hcongr]
  decide

theorem repair_of_all_valid (cfg : Config) (pixels : Int → Int → Channel → F32)
    (y : Int) (z : Channel) (row : List F32) :
    ∀ x : Int, (∀ v ∈ row, invalid v = false) → repair cfg pixels y z x row = row := by
  induction row with
  | nil => intro x _; rfl
  | cons v rest ih =>
    intro x h
    simp only [repair]
    rw [repairSample_of_valid _ _ _ _ _ _ (h v (List.mem_cons_self _ _)),
      ih (x + 1) (fun w hw => h w (List.mem_cons_of_mem _ hw))]

theorem repair_all_valid (cfg : Config) (pixels : Int → Int → Channel → F32)
    (y : Int) (z : Channel) (row : List F32) (hd : invalid cfg.default_value = false) :
    ∀ x : Int, ∀ v ∈ repair cfg pixels y z x row, invalid v = false := by
  induction row with
  | nil => intro x v hv; simp [repair] at hv
  | cons w rest ih =>
    intro x v hv
    simp only [repair, List.mem_cons] at hv
    rcases hv with hv | hv
    · rw [hv]; exact repairSample_valid cfg pixels y z x w hd
    · exact ih (x + 1) v hv

theorem pixel_engine_not_mem (cfg : Config) (pixels : Int → Int → Channel → F32)
    (inRow : Channel → List F32) (y x : Int) (z : Channel) (channels : List Channel) :
    ∀ out : Channel → List F32, z ∉ channels →
      pixel_engine cfg pixels inRow y x channels out z = out z := by
  induction channels with
  | nil => intro out _; rfl
  | cons c cs ih =>
    intro out hz
    have hzc : z ≠ c := fun h => hz (h ▸ List.mem_cons_self _ _)
    have hzcs : z ∉ cs := fun h => hz (List.mem_cons_of_mem _ h)
    simp only [pixel_engine, List.foldl_cons]
    have := ih (Function.update out c (repair cfg pixels y c x (inRow c))) hzcs
    simp only [pixel_engine] at this
    rw [this, Function.update_noteq hzc]

theorem pixel_engine_mem (cfg : Config) (pixels : Int → Int → Channel → F32)
    (inRow : Channel → List F32) (y x : Int) (z : Channel) (channels : List Channel) :
    ∀ out : Channel → List F32, z ∈ channels →
      pixel_engine cfg pixels inRow y x channels out z =
        repair cfg pixels y z x (inRow z) := by
  induction channels with
  | nil => intro out hz; simp at hz
  | cons c cs ih =>
    intro out hz
    simp only [pixel_engine, List.foldl_cons]
    by_cases hzcs : z ∈ cs
    · have := ih (Function.update out c (repair cfg pixels y c x (inRow c))) hzcs
      simpa only [pixel_engine] using this
    · have hzc : z = c := by
        rcases List.mem_cons.mp hz with h | h
        · exact h
        · exact absurd h hzcs
      have := pixel_engine_not_mem cfg pixels inRow y x z cs
        (Function.update out c (repair cfg pixels y c x (inRow c))) hzcs
      simp only [pixel_engine] at this
      rw [this, hzc, Function.update_same]

theorem repair_append (cfg : Config) (pixels : Int → Int → Channel → F32) (y : Int)
    (z : Channel) (xs ys : List F32) : ∀ x : Int,
    repair cfg pixels y z x (xs ++ ys) =
      repair cfg pixels y z x xs ++ repair cfg pixels y z (x + xs.length) ys := by
  induction xs with
  | nil => intro x; simp [repair]
  | cons v rest ih =>
    intro x
    have hc : x + 1 + (rest.length : Int) = x + ((rest.length + 1 : Nat) : Int) := by
      push_cast; ring
    show repairSample cfg pixels y z x v :: repair cfg pixels y z (x + 1) (rest ++ ys) = _
    rw [ih (x + 1), hc]
    rfl

theorem sampleAll_update_centre (cfg : Config) (pixels : Int → Int → Channel → F32)
    (rowPos y : Int) (z : Channel) (c : F32) :
    sampleAll ⟨cfg.default_value, Function.update cfg.sampleMatrixValues 4 c⟩ pixels rowPos y z
      = sampleAll cfg pixels rowPos y z := by
  have h : ∀ k : Fin 9, k ≠ 4 →
      Function.update cfg.sampleMatrixValues 4 c k = cfg.sampleMatrixValues k :=
    fun k hk => by simp [Function.update, hk]
  simp only [sampleAll]
  rw [h 3 (by decide), h 0 (by decide), h 6 (by decide), h 1 (by decide), h 7 (by decide),
    h 5 (by decide), h 2 (by decide), h 8 (by decide)]

theorem repair_congr (cfg1 cfg2 : Config) (pixels : Int → Int → Channel → F32) (y : Int)
    (z : Channel) (row : List F32)
    (h : ∀ (rowPos : Int) (value : F32),
      repairSample cfg1 pixels y z rowPos value = repairSample cfg2 pixels y z rowPos value) :
    ∀ x : Int, repair cfg1 pixels y z x row = repair cfg2 pixels y z x row := by
  induction row with
  | nil => intro x; rfl
  | cons v rest ih => intro x; simp only [repair, h, ih]

theorem block_congr (m1 m2 : F32) (h : toInt m1 = toInt m2) (fetch : Int → F32) (s : Acc) :
    block m1 fetch s = block m2 fetch s := by
  simp only [block, h]

theorem sampleAll_congr (dv1 dv2 : F32) (m1 m2 : Fin 9 → F32)
    (h : ∀ k : Fin 9, k ≠ 4 → toInt (m1 k) = toInt (m2 k))
    (pixels : Int → Int → Channel → F32) (rowPos y : Int) (z : Channel) :
    sampleAll ⟨dv1, m1⟩ pixels rowPos y z = sampleAll ⟨dv2, m2⟩ pixels rowPos y z := by
  simp only [sampleAll]
  rw [block_congr _ _ (h 3 (by decide)), block_congr _ _ (h 0 (by decide)),
    block_congr _ _ (h 6 (by decide)), block_congr _ _ (h 1 (by decide)),
    block_congr _ _ (h 7 (by decide)), block_congr _ _ (h 5 (by decide)),
    block_congr _ _ (h 2 (by decide)), block_congr _ _ (h 8 (by decide))]

theorem block_skip (m : F32) (h : toInt m = 0) (fetch : Int → F32) (s : Acc) :
    block m fetch s = s := by
  simp [block, h]

theorem enabledDirs_initial : enabledDirs Config.initial = order := by
  decide

theorem neighbours_initial (pixels : Int → Int → Channel → F32) (col row : Int)
    (z : Channel) :
    order.map (neighbour Config.initial pixels col row z) = ring8 pixels col row z := by
  have hm : ∀ k : Fin 9, k ≠ 4 → toInt (Config.initial.sampleMatrixValues k) = 1 := by
    decide
  simp only [order, List.map, ring8, offsets8, neighbour]
  rw [hm 3 (by decide), hm 0 (by decide), hm 6 (by decide), hm 1 (by decide),
    hm 7 (by decide), hm 5 (by decide), hm 2 (by decide), hm 8 (by decide)]
  have e3 : nbrCoord 3 1 col row = (col - 1, row) := rfl
  have e0 : nbrCoord 0 1 col row = (col - 1, row - 1) := rfl
  have e6 : nbrCoord 6 1 col row = (col - 1, row + 1) := rfl
  have e1 : nbrCoord 1 1 col row = (col, row - 1) := rfl
  have e7 : nbrCoord 7 1 col row = (col, row + 1) := rfl
  have e5 : nbrCoord 5 1 col row = (col + 1, row) := rfl
  have e2 : nbrCoord 2 1 col row = (col + 1, row - 1) := rfl
  have e8 : nbrCoord 8 1 col row = (col + 1, row + 1) := rfl
  simp only [e3, e0, e6, e1, e7, e5, e2, e8, sub_eq_add_neg, add_zero]

theorem validDirs_initial (pixels : Int → Int → Channel → F32) (col row : Int)
    (z : Channel) :
    (validDirs Config.initial pixels col row z).map (neighbour Config.initial pixels col row z)
      = ring8Valid pixels col row z := by
  rw [validDirs, enabledDirs_initial, ring8Valid, ← neighbours_initial, List.filter_map]
  rfl

theorem specRepaired_initial (pixels : Int → Int → Channel → F32) (col row : Int)
    (z : Channel) :
    specRepaired Config.initial pixels col row z =
      if 0 < (ring8Valid pixels col row z).length ∧
          invalid (ring8Mean pixels col row z) = false then
        ring8Mean pixels col row z
      else one := by
  have hlen : (validDirs Config.initial pixels col row z).length =
      (ring8Valid pixels col row z).length := by
    rw [← validDirs_initial, List.length_map]
  have hmean : validMean Config.initial pixels col row z = ring8Mean pixels col row z := by
    simp only [validMean, validSum, ring8Mean, validDirs_initial, hlen]
  simp only [specRepaired, hlen, hmean]
  rfl

theorem foldl_single_step (step : Acc → Fin 9 → Acc) (k : Fin 9)
    (hoff : ∀ j : Fin 9, j ≠ k → ∀ s : Acc, step s j = s) (l : List (Fin 9)) :
    l.Nodup → ∀ s : Acc, l.foldl step s = if k ∈ l then step s k else s := by
  induction l with
  | nil => intro _ s; simp
  | cons j l ih =>
    intro hnd s
    obtain ⟨hj, hl⟩ := List.nodup_cons.mp hnd
    simp only [List.foldl_cons]
    by_cases hjk : j = k
    · subst hjk
      rw [ih hl]
      simp [hj]
    · have hkj : ¬ k = j := fun h => hjk h.symm
      rw [hoff j hjk, ih hl]
      simp [hkj]

theorem mem_order (k : Fin 9) (hk : k ≠ 4) : k ∈ order := by
  revert k; decide

theorem sampleAll_onlyEntry (dv m : F32) (k : Fin 9) (hk : k ≠ 4)
    (pixels : Int → Int → Channel → F32) (rowPos y : Int) (z : Channel) :
    sampleAll ⟨dv, onlyEntry k m⟩ pixels rowPos y z =
      stepDir ⟨dv, onlyEntry k m⟩ pixels rowPos y z ⟨posZero, posZero⟩ k := by
  have hz : toInt posZero = 0 := by decide
  have hoff : ∀ j : Fin 9, j ≠ k → ∀ s : Acc,
      stepDir ⟨dv, onlyEntry k m⟩ pixels rowPos y z s j = s := by
    intro j hj s
    have : onlyEntry k m j = posZero := by simp [onlyEntry, hj]
    simp only [stepDir, this]
    exact block_skip posZero hz _ s
  rw [sampleAll_eq_foldl, foldl_single_step _ k hoff order (by decide)]
  simp [mem_order k hk]

theorem toInt_neg (m : F32) (h : isfinite m = true) : toInt (neg m) = -toInt m := by
  have hf : isfinite (neg m) = true := h
  have hm : mag (neg m) = mag m := rfl
  simp only [toInt, hf, h, if_true, hm]
  cases hs : m.sign <;> simp [neg, hs]

/-! ## Claims -/

/-- C1. An invalid sample at index `i` (column `x + i`, row `y`) is replaced by the sum
of the valid enabled neighbour values divided by their number when there is at least
one and the quotient is finite, and by `default_value` otherwise.  The sum runs over
the directions in source order starting from `0.0f`; invalid neighbours contribute
neither to the sum nor to the count. -/
theorem C1_invalid_sample_is_mean_or_default (cfg : Config)
    (pixels : Int → Int → Channel → F32) (y x : Int) (z : Channel) (row : List F32)
    (i : Nat) (value : F32) (hi : row[i]? = some value) (hinv : invalid value = true) :
    (repair cfg pixels y z x row)[i]? =
      some (if 0 < (validDirs cfg pixels (x + i) y z).length ∧
              invalid (validMean cfg pixels (x + i) y z) = false then
            validMean cfg pixels (x + i) y z
          else cfg.default_value) := by
  rw [repair_getElem?, hi, Option.map_some', repairSample_of_invalid _ _ _ _ _ _ hinv]
  rfl

/-- Instance of C1 on the scenario of section 8: index 1 of `exRow` with E and W enabled. -/
theorem C1_invalid_sample_is_mean_or_default_witness :
    exRow[1]? = some qnan ∧ invalid qnan = true ∧
    (repair exConfigEW exPixels 0 0 0 exRow)[1]? =
      some (if 0 < (validDirs exConfigEW exPixels (0 + (1 : Nat)) 0 0).length ∧
              invalid (validMean exConfigEW exPixels (0 + (1 : Nat)) 0 0) = false then
            validMean exConfigEW exPixels (0 + (1 : Nat)) 0 0
          else exConfigEW.default_value) :=
  ⟨by decide, by decide,
    C1_invalid_sample_is_mean_or_default exConfigEW exPixels 0 0 0 exRow 1 qnan
      (by decide) (by decide)⟩

/-- C2. Passthrough: a sample that is finite and not NaN is written to the output at
the same index unchanged, whatever the matrix, `default_value` and the neighbours. -/
theorem C2_passthrough (cfg : Config) (pixels : Int → Int → Channel → F32) (y x : Int)
    (z : Channel) (row : List F32) (i : Nat) (value : F32) (hi : row[i]? = some value)
    (hfin : isfinite value = true ∧ isnan value = false) :
    (repair cfg pixels y z x row)[i]? = some value := by
  have hv : invalid value = false := by simp [invalid, hfin.1, hfin.2]
  rw [repair_getElem?, hi, Option.map_some', repairSample_of_valid _ _ _ _ _ _ hv]

/-- Instance of C2: the finite sample `3.0` at index 2 of `exRow`. -/
theorem C2_passthrough_witness :
    exRow[2]? = some (ofNat 3) ∧ (isfinite (ofNat 3) = true ∧ isnan (ofNat 3) = false) ∧
    (repair exConfigEW exPixels 0 0 0 exRow)[2]? = some (ofNat 3) :=
  ⟨by decide, by decide,
    C2_passthrough exConfigEW exPixels 0 0 0 exRow 2 (ofNat 3) (by decide) (by decide)⟩

/-- C3. Totality: when `default_value` and the nine matrix entries are finite, every
output sample is finite and not NaN, for every neighbour accessor and every input
row. -/
theorem C3_output_finite (cfg : Config) (pixels : Int → Int → Channel → F32) (y x : Int)
    (z : Channel) (row : List F32)
    (hd : isfinite cfg.default_value = true)
    (_hm : ∀ k : Fin 9, isfinite (cfg.sampleMatrixValues k) = true) :
    ∀ v ∈ repair cfg pixels y z x row, isfinite v = true ∧ isnan v = false := by
  have hd2 : invalid cfg.default_value = false := by
    simp [invalid, hd, isnan_of_isfinite _ hd]
  intro v hv
  obtain ⟨i, hi⟩ := List.getElem?_of_mem hv
  rw [repair_getElem?] at hi
  cases hr : row[i]? with
  | none => rw [hr] at hi; simp at hi
  | some w =>
    rw [hr, Option.map_some'] at hi
    have h := repairSample_valid cfg pixels y z (x + i) w hd2
    rw [Option.some.inj hi] at h
    simpa [invalid] using h

/-- Instance of C3 on the scenario of section 8. -/
theorem C3_output_finite_witness :
    (isfinite exConfigEW.default_value = true ∧
      ∀ k : Fin 9, isfinite (exConfigEW.sampleMatrixValues k) = true) ∧
    ∀ v ∈ repair exConfigEW exPixels 0 0 0 exRow, isfinite v = true ∧ isnan v = false :=
  ⟨⟨by decide, by decide⟩,
    C3_output_finite exConfigEW exPixels 0 0 0 exRow (by decide) (by decide)⟩

/-- C4. Direction formulas, all directions but index 1.  When entry `k` (one of 0, 2,
3, 5, 6, 7, 8) is the only entry with `int(m) != 0` and `d = int(m)`, an invalid sample
at `(col, row)` is repaired from the neighbour `v` at the coordinate of the table of
section 4.1: a valid `v` gives an output equal to `v` (as floats; bit for bit unless
`v` is `-0.0f`, which gives `0.0f`), an invalid `v` gives `default_value`. -/
theorem C4_direction_formulas (cfg : Config) (pixels : Int → Int → Channel → F32)
    (y x : Int) (z : Channel) (row : List F32) (i : Nat) (value : F32) (k : Fin 9)
    (d : Int) (v : F32) (hk4 : k ≠ 4) (hk1 : k ≠ 1)
    (hd : toInt (cfg.sampleMatrixValues k) = d) (hen : d ≠ 0)
    (hoff : ∀ j : Fin 9, j ≠ k → j ≠ 4 → toInt (cfg.sampleMatrixValues j) = 0)
    (hi : row[i]? = some value) (hinv : invalid value = true)
    (hv : pixels (specCoord k d (x + i) y).1 (specCoord k d (x + i) y).2 z = v) :
    ∃ out, (repair cfg pixels y z x row)[i]? = some out ∧
      (invalid v = false → feq out v = true ∧ (v ≠ negZero → out = v)) ∧
      (invalid v = true → out = cfg.default_value) := by
  have hnb : neighbour cfg pixels (x + i) y z k = v := by
    rw [← hv, ← nbrCoord_eq_specCoord k hk1, ← hd]
    rfl
  refine ⟨if invalid v then cfg.default_value else add posZero v, ?_, ?_, ?_⟩
  · rw [repair_getElem?, hi, Option.map_some', repairSample_of_invalid _ _ _ _ _ _ hinv,
      specRepaired_single cfg pixels (x + i) y z k hk4 (by rw [hd]; exact hen) hoff, hnb]
  · intro h
    simp only [h, Bool.false_eq_true, if_false]
    exact posZero_add_feq _ h
  · intro h
    simp only [h, if_true]

/-- Instance of C4 for direction 8 (SE) with offset 1: the sample at column 1 of row 0 is repaired from `(2, 1)`, which holds `3.0`. -/
theorem C4_direction_formulas_witness :
    ((8 : Fin 9) ≠ 4 ∧ (8 : Fin 9) ≠ 1 ∧ toInt ((onlyEntry 8 one) 8) = 1 ∧ (1 : Int) ≠ 0 ∧
      (∀ j : Fin 9, j ≠ 8 → j ≠ 4 → toInt ((onlyEntry 8 one) j) = 0) ∧
      exRow[1]? = some qnan ∧ invalid qnan = true ∧
      exPixels (specCoord 8 1 (0 + (1 : Nat)) 0).1 (specCoord 8 1 (0 + (1 : Nat)) 0).2 0 =
        ofNat 3) ∧
    ∃ out, (repair ⟨ofNat 9, onlyEntry 8 one⟩ exPixels 0 0 0 exRow)[1]? = some out ∧
      (invalid (ofNat 3) = false →
        feq out (ofNat 3) = true ∧ (ofNat 3 ≠ negZero → out = ofNat 3)) ∧
      (invalid (ofNat 3) = true → out = (ofNat 9 : F32)) :=
  ⟨⟨by decide, by decide, by decide, by decide, by decide, by decide, by decide, by decide⟩,
    C4_direction_formulas ⟨ofNat 9, onlyEntry 8 one⟩ exPixels 0 0 0 exRow 1 qnan 8 1 (ofNat 3)
      (by decide) (by decide) (by decide) (by decide) (by decide) (by decide) (by decide)
      (by decide)⟩

/-- C5 (as stated, refuted). With only entry 1 set to `1.0f`, the invalid sample at
`(0, 0)` is repaired to `7.0`, the value at `(0, -1)`, while the coordinate
`(col - d, row) = (-1, 0)` of the specification table holds `5.0`, which is what the
configuration with only entry 3 set to `1.0f` produces. -/
theorem C5_index1_is_not_west :
    toInt (exConfigN.sampleMatrixValues 1) = 1 ∧
    repair exConfigN exCross 0 0 0 [qnan] = [ofNat 7] ∧
    exCross (specCoord 1 1 0 0).1 (specCoord 1 1 0 0).2 0 = ofNat 5 ∧
    repair exConfigW exCross 0 0 0 [qnan] = [ofNat 5] ∧
    repair exConfigN exCross 0 0 0 [qnan] ≠ repair exConfigW exCross 0 0 0 [qnan] := by
  decide

/-- C5 (amended). Direction index 1 samples `(col, row - d)`: when entry 1 is the only
entry with `int(m) != 0` and `d = int(m)`, an invalid sample at `(col, row)` is repaired
from the neighbour `v` at `(col, row - d)`: a valid `v` gives an output equal to `v`
(bit for bit unless `v` is `-0.0f`), an invalid `v` gives `default_value`. -/
theorem C5_index1_samples_north (cfg : Config) (pixels : Int → Int → Channel → F32)
    (y x : Int) (z : Channel) (row : List F32) (i : Nat) (value : F32)
    (d : Int) (v : F32)
    (hd : toInt (cfg.sampleMatrixValues 1) = d) (hen : d ≠ 0)
    (hoff : ∀ j : Fin 9, j ≠ 1 → j ≠ 4 → toInt (cfg.sampleMatrixValues j) = 0)
    (hi : row[i]? = some value) (hinv : invalid value = true)
    (hv : pixels (x + i) (y - d) z = v) :
    ∃ out, (repair cfg pixels y z x row)[i]? = some out ∧
      (invalid v = false → feq out v = true ∧ (v ≠ negZero → out = v)) ∧
      (invalid v = true → out = cfg.default_value) := by
  have hnb : neighbour cfg pixels (x + i) y z 1 = v := by
    rw [← hv, ← hd]
    rfl
  refine ⟨if invalid v then cfg.default_value else add posZero v, ?_, ?_, ?_⟩
  · rw [repair_getElem?, hi, Option.map_some', repairSample_of_invalid _ _ _ _ _ _ hinv,
      specRepaired_single cfg pixels (x + i) y z 1 (by decide) (by rw [hd]; exact hen) hoff,
      hnb]
  · intro h
    simp only [h, Bool.false_eq_true, if_false]
    exact posZero_add_feq _ h
  · intro h
    simp only [h, if_true]

/-- Instance of amended C5: with only entry 1 set to `1.0f` the sample at `(0, 0)` is repaired from `(0, -1)`, which holds `7.0`. -/
theorem C5_index1_samples_north_witness :
    (toInt (exConfigN.sampleMatrixValues 1) = 1 ∧ (1 : Int) ≠ 0 ∧
      (∀ j : Fin 9, j ≠ 1 → j ≠ 4 → toInt (exConfigN.sampleMatrixValues j) = 0) ∧
      [qnan][0]? = some qnan ∧ invalid qnan = true ∧
      exCross (0 + (0 : Nat)) (0 - 1) 0 = ofNat 7) ∧
    ∃ out, (repair exConfigN exCross 0 0 0 [qnan])[0]? = some out ∧
      (invalid (ofNat 7) = false →
        feq out (ofNat 7) = true ∧ (ofNat 7 ≠ negZero → out = ofNat 7)) ∧
      (invalid (ofNat 7) = true → out = exConfigN.default_value) :=
  ⟨⟨by decide, by decide, by decide, by decide, by decide, by decide⟩,
    C5_index1_samples_north exConfigN exCross 0 0 0 [qnan] 0 qnan 1 (ofNat 7)
      (by decide) (by decide) (by decide) (by decide) (by decide) (by decide)⟩

/-- C6. Fallback: when the eight non-centre entries are zero, every invalid input
sample is replaced by exactly `default_value`, for every neighbour accessor and every
`default_value`; the division `0.0f / 0.0f` yields NaN. -/
theorem C6_all_zero_matrix_gives_default (cfg : Config)
    (pixels : Int → Int → Channel → F32) (y x : Int) (z : Channel) (row : List F32)
    (i : Nat) (value : F32)
    (hzero : ∀ k : Fin 9, k ≠ 4 → isZero (cfg.sampleMatrixValues k) = true)
    (hi : row[i]? = some value) (hinv : invalid value = true) :
    (repair cfg pixels y z x row)[i]? = some cfg.default_value ∧
      isnan (div posZero posZero) = true := by
  refine ⟨?_, by decide⟩
  rw [repair_getElem?, hi, Option.map_some', repairSample_of_invalid _ _ _ _ _ _ hinv]
  congr 1
  apply specRepaired_of_nil
  intro j hj
  exact Or.inl (isZero_toInt _ (hzero j (order_ne_centre j hj)))

/-- Instance of C6: the all-zero matrix with `default_value = 9.0` on `exRow`. -/
theorem C6_all_zero_matrix_gives_default_witness :
    ((∀ k : Fin 9, k ≠ 4 → isZero ((fun _ => posZero : Fin 9 → F32) k) = true) ∧
      exRow[1]? = some qnan ∧ invalid qnan = true) ∧
    ((repair ⟨ofNat 9, fun _ => posZero⟩ exPixels 0 0 0 exRow)[1]? = some (ofNat 9 : F32) ∧
      isnan (div posZero posZero) = true) :=
  ⟨⟨by decide, by decide, by decide⟩,
    C6_all_zero_matrix_gives_default ⟨ofNat 9, fun _ => posZero⟩ exPixels 0 0 0 exRow 1 qnan
      (by decide) (by decide) (by decide)⟩

/-- C7. Neighbour gate: when every non-centre entry other than `k` is zero and the
neighbour the source reads for direction `k` is invalid, an invalid input sample is
replaced by exactly `default_value`. -/
theorem C7_invalid_neighbour_gives_default (cfg : Config)
    (pixels : Int → Int → Channel → F32) (y x : Int) (z : Channel) (row : List F32)
    (i : Nat) (value : F32) (k : Fin 9) (_hk : k ≠ 4)
    (_hnz : isZero (cfg.sampleMatrixValues k) = false)
    (hoff : ∀ j : Fin 9, j ≠ k → j ≠ 4 → isZero (cfg.sampleMatrixValues j) = true)
    (hi : row[i]? = some value) (hinv : invalid value = true)
    (hnb : invalid (neighbour cfg pixels (x + i) y z k) = true) :
    (repair cfg pixels y z x row)[i]? = some cfg.default_value := by
  rw [repair_getElem?, hi, Option.map_some', repairSample_of_invalid _ _ _ _ _ _ hinv]
  congr 1
  apply specRepaired_of_nil
  intro j hj
  by_cases hjk : j = k
  · subst hjk; exact Or.inr hnb
  · exact Or.inl (isZero_toInt _ (hoff j hjk (order_ne_centre j hj)))

/-- Instance of C7, the edge-of-row scenario: invalid sample at column 0, only W enabled, NaN returned for column -1. -/
theorem C7_invalid_neighbour_gives_default_witness :
    ((3 : Fin 9) ≠ 4 ∧ isZero (exConfigW.sampleMatrixValues 3) = false ∧
      (∀ j : Fin 9, j ≠ 3 → j ≠ 4 → isZero (exConfigW.sampleMatrixValues j) = true) ∧
      [qnan][0]? = some qnan ∧ invalid qnan = true ∧
      neighbour exConfigW exPixels (0 + (0 : Nat)) 0 0 3 = exPixels (-1) 0 0 ∧
      invalid (neighbour exConfigW exPixels (0 + (0 : Nat)) 0 0 3) = true) ∧
    (repair exConfigW exPixels 0 0 0 [qnan])[0]? = some exConfigW.default_value :=
  ⟨⟨by decide, by decide, by decide, by decide, by decide, by decide, by decide⟩,
    C7_invalid_neighbour_gives_default exConfigW exPixels 0 0 0 [qnan] 0 qnan 3
      (by decide) (by decide) (by decide) (by decide) (by decide) (by decide)⟩

/-- C8 (as stated, refuted). With E and W set to `1.0f` and both neighbours valid and
equal to `FLT_MAX`, the sum overflows to infinity and the sample is repaired to
`default_value = 9.0`, which is neither the single-precision `(a + b) / 2` (infinity)
nor the exact mean (`FLT_MAX`). -/
theorem C8_mean_overflow_gives_default :
    invalid (exHuge (0 - 1) 0 0) = false ∧ invalid (exHuge (0 + 1) 0 0) = false ∧
    repair exConfigEW exHuge 0 0 0 [qnan] = [exConfigEW.default_value] ∧
    repair exConfigEW exHuge 0 0 0 [qnan] ≠
      [div (add (exHuge (0 - 1) 0 0) (exHuge (0 + 1) 0 0)) (ofNat 2)] ∧
    repair exConfigEW exHuge 0 0 0 [qnan] ≠ [maxFinite] := by
  decide

/-- C8 (amended). With entries 3 (W) and 5 (E) equal to `1.0f` and the other six
direction entries zero, an invalid sample at `(col, row)` whose neighbours at
`(col - 1, row)` and `(col + 1, row)` are valid with values `a` and `b` is repaired to
the single-precision quotient `((0.0f + a) + b) / 2.0f` when that quotient is finite,
and to `default_value` when it is not (the sum overflowed). -/
theorem C8_east_west_mean (cfg : Config) (pixels : Int → Int → Channel → F32)
    (y x : Int) (z : Channel) (row : List F32) (i : Nat) (value a b : F32)
    (h3 : cfg.sampleMatrixValues 3 = one) (h5 : cfg.sampleMatrixValues 5 = one)
    (hoff : ∀ j : Fin 9, j ≠ 3 → j ≠ 5 → j ≠ 4 → isZero (cfg.sampleMatrixValues j) = true)
    (hi : row[i]? = some value) (hinv : invalid value = true)
    (ha : pixels (x + i - 1) y z = a) (hb : pixels (x + i + 1) y z = b)
    (hva : invalid a = false) (hvb : invalid b = false) :
    (repair cfg pixels y z x row)[i]? =
      some (if invalid (div (add (add posZero a) b) (ofNat 2)) then cfg.default_value
        else div (add (add posZero a) b) (ofNat 2)) := by
  have hone : toInt one = 1 := by decide
  have hE := enabledDirs_pair cfg (by rw [h3, hone]; decide) (by rw [h5, hone]; decide)
    (fun j hj3 hj5 hj4 => isZero_toInt _ (hoff j hj3 hj5 hj4))
  have hn3 : neighbour cfg pixels (x + i) y z 3 = a := by
    rw [← ha]; simp only [neighbour, h3, hone]; rfl
  have hn5 : neighbour cfg pixels (x + i) y z 5 = b := by
    rw [← hb]; simp only [neighbour, h5, hone]; rfl
  have hV : validDirs cfg pixels (x + i) y z = [3, 5] := by
    simp [validDirs, hE, List.filter_cons, hn3, hn5, hva, hvb]
  have hmean : validMean cfg pixels (x + i) y z = div (add (add posZero a) b) (ofNat 2) := by
    simp [validMean, validSum, hV, hn3, hn5]
  rw [repair_getElem?, hi, Option.map_some', repairSample_of_invalid _ _ _ _ _ _ hinv]
  congr 1
  simp only [specRepaired, hV, hmean]
  cases hq : invalid (div (add (add posZero a) b) (ofNat 2)) <;> simp

/-- Instance of amended C8, the concrete scenario of section 8: index 1 is repaired to `2.0` and the whole row becomes `[1.0, 2.0, 3.0, 4.0, 5.0]`. -/
theorem C8_east_west_mean_witness :
    (exConfigEW.sampleMatrixValues 3 = one ∧ exConfigEW.sampleMatrixValues 5 = one ∧
      (∀ j : Fin 9, j ≠ 3 → j ≠ 5 → j ≠ 4 →
        isZero (exConfigEW.sampleMatrixValues j) = true) ∧
      exRow[1]? = some qnan ∧ invalid qnan = true ∧
      exPixels (0 + (1 : Nat) - 1) 0 0 = one ∧ exPixels (0 + (1 : Nat) + 1) 0 0 = ofNat 3 ∧
      invalid one = false ∧ invalid (ofNat 3) = false) ∧
    (repair exConfigEW exPixels 0 0 0 exRow)[1]? =
      some (if invalid (div (add (add posZero one) (ofNat 3)) (ofNat 2)) then
          exConfigEW.default_value
        else div (add (add posZero one) (ofNat 3)) (ofNat 2)) ∧
    div (add (add posZero one) (ofNat 3)) (ofNat 2) = ofNat 2 ∧
    repair exConfigEW exPixels 0 0 0 exRow = [one, ofNat 2, ofNat 3, ofNat 4, ofNat 5] :=
  ⟨⟨by decide, by decide, by decide, by decide, by decide, by decide, by decide, by decide,
      by decide⟩,
    C8_east_west_mean exConfigEW exPixels 0 0 0 exRow 1 qnan one (ofNat 3)
      (by decide) (by decide) (by decide) (by decide) (by decide) (by decide) (by decide)
      (by decide) (by decide),
    by decide, by decide⟩

/-- C9. Idempotence: with a finite `default_value`, repairing the output of a repair
(same row position, accessor and configuration) returns it unchanged. -/
theorem C9_idempotent (cfg : Config) (pixels : Int → Int → Channel → F32) (y x : Int)
    (z : Channel) (row : List F32) (hd : isfinite cfg.default_value = true) :
    repair cfg pixels y z x (repair cfg pixels y z x row) = repair cfg pixels y z x row := by
  have hd2 : invalid cfg.default_value = false := by
    simp [invalid, hd, isnan_of_isfinite _ hd]
  exact repair_of_all_valid cfg pixels y z _ x (repair_all_valid cfg pixels y z row hd2 x)

/-- Instance of C9 on the scenario of section 8. -/
theorem C9_idempotent_witness :
    isfinite exConfigEW.default_value = true ∧
    repair exConfigEW exPixels 0 0 0 (repair exConfigEW exPixels 0 0 0 exRow) =
      repair exConfigEW exPixels 0 0 0 exRow :=
  ⟨by decide, C9_idempotent exConfigEW exPixels 0 0 0 exRow (by decide)⟩

/-- C10 (as stated, refuted). The entry `0.5f` is not zero, yet `int(0.5f) = 0` and the
direction is skipped: with only W set to `0.5f` and every neighbour valid and equal to
`1.0`, the invalid sample is repaired to `default_value = 9.0`, whereas W set to `1.0f`
gives `1.0`. -/
theorem C10_nonzero_entry_can_disable :
    isZero half = false ∧ isfinite half = true ∧ toInt half = 0 ∧
    repair exConfigHalf exOnes 0 0 0 [qnan] = [exConfigHalf.default_value] ∧
    repair exConfigW exOnes 0 0 0 [qnan] = [one] ∧
    (∀ fetch s, block half fetch s = s) := by
  refine ⟨by decide, by decide, by decide, by decide, by decide, ?_⟩
  intro fetch s
  have h : toInt half = 0 := by decide
  simp [block, h]

/-- C10 (amended). A direction is skipped (its block leaves the sum and the count
untouched, whatever the accessor returns) if and only if the truncation `int(m)` of
its entry is 0; for a finite entry that is exactly when `|m| < 1`, so `0.0f` disables,
every entry with `|m| >= 1` enables, and a non-zero entry below 1 in magnitude
disables as well. -/
theorem C10_gate_is_truncation (m : F32) (hfin : isfinite m = true) :
    ((∀ fetch s, block m fetch s = s) ↔ toInt m = 0) ∧
    (toInt m = 0 ↔ mag m < mag one) := by
  constructor
  · constructor
    · intro h
      by_contra hne
      have h1 := h (fun _ => one) ⟨posZero, posZero⟩
      have hv : invalid one = false := by decide
      simp only [block, hne, ne_eq, not_false_eq_true, if_true, hv, Bool.false_eq_true,
        if_false] at h1
      exact absurd h1 (by decide)
    · intro h fetch s
      simp [block, h]
  · have hone : mag one = 2 ^ 149 := by decide
    have hpos : 0 < 2 ^ 149 := by positivity
    rw [hone]
    simp only [toInt, hfin, if_true]
    constructor
    · intro h
      have h0 : mag m / 2 ^ 149 = 0 := by
        split at h <;> omega
      exact (Nat.div_eq_zero_iff hpos).mp h0
    · intro h
      have h0 : mag m / 2 ^ 149 = 0 := (Nat.div_eq_zero_iff hpos).mpr h
      rw [h0]
      split <;> rfl

/-- Instance of amended C10 at the entry `0.5f`. -/
theorem C10_gate_is_truncation_witness :
    isfinite half = true ∧
    (((∀ fetch s, block half fetch s = s) ↔ toInt half = 0) ∧
      (toInt half = 0 ↔ mag half < mag one)) :=
  ⟨by decide, C10_gate_is_truncation half (by decide)⟩

/-- C11. The centre entry (index 4) does not participate: replacing it by any value `c`
leaves the whole output of `repair` unchanged, for every row, accessor and
configuration. -/
theorem C11_centre_entry_unused (cfg : Config) (pixels : Int → Int → Channel → F32)
    (y x : Int) (z : Channel) (row : List F32) (c : F32) :
    repair ⟨cfg.default_value, Function.update cfg.sampleMatrixValues 4 c⟩ pixels y z x row =
      repair cfg pixels y z x row := by
  apply repair_congr
  intro rowPos value
  simp only [repairSample, finish, sampleAll_update_centre]

/-- C12. Sample independence: the output row has the length of the input row; the output
at index `i` is `repairSample` of the input sample at `i` and its column `x + i` (with
the row, channel, accessor and configuration); overwriting another index `j` of the
input leaves output `i` unchanged; and `repair` distributes over concatenation. -/
theorem C12_sample_independence (cfg : Config) (pixels : Int → Int → Channel → F32)
    (y x : Int) (z : Channel) (row xs ys : List F32) (i j : Nat) (w : F32) (hij : j ≠ i) :
    (repair cfg pixels y z x row).length = row.length ∧
    (repair cfg pixels y z x row)[i]? =
      (row[i]?).map (repairSample cfg pixels y z (x + i)) ∧
    (repair cfg pixels y z x (row.set j w))[i]? = (repair cfg pixels y z x row)[i]? ∧
    repair cfg pixels y z x (xs ++ ys) =
      repair cfg pixels y z x xs ++ repair cfg pixels y z (x + xs.length) ys := by
  refine ⟨repair_length cfg pixels y z row x, repair_getElem? cfg pixels y z row x i, ?_,
    repair_append cfg pixels y z xs ys x⟩
  rw [repair_getElem?, repair_getElem?, List.getElem?_set_ne hij]

/-- Instance of C12 on the scenario of section 8: overwriting index 3 does not change
output 1, and the row splits as `[1.0, NaN] ++ [3.0, 4.0, 5.0]`. -/
theorem C12_sample_independence_witness :
    (3 : Nat) ≠ 1 ∧
    ((repair exConfigEW exPixels 0 0 0 exRow).length = exRow.length ∧
    (repair exConfigEW exPixels 0 0 0 exRow)[1]? =
      (exRow[1]?).map (repairSample exConfigEW exPixels 0 0 (0 + (1 : Nat))) ∧
    (repair exConfigEW exPixels 0 0 0 (exRow.set 3 qnan))[1]? =
      (repair exConfigEW exPixels 0 0 0 exRow)[1]? ∧
    repair exConfigEW exPixels 0 0 0 ([one, qnan] ++ [ofNat 3, ofNat 4, ofNat 5]) =
      repair exConfigEW exPixels 0 0 0 [one, qnan] ++
        repair exConfigEW exPixels 0 0 (0 + ([one, qnan] : List F32).length)
          [ofNat 3, ofNat 4, ofNat 5]) :=
  ⟨by decide,
    C12_sample_independence exConfigEW exPixels 0 0 0 exRow [one, qnan]
      [ofNat 3, ofNat 4, ofNat 5] 1 3 qnan (by decide)⟩

/-- C13. Unchecked misuse: when `default_value` is itself infinite or NaN and an invalid
input sample has no valid enabled neighbour, the engine writes that `default_value`
unchanged, so the output row contains an invalid sample. -/
theorem C13_nonfinite_default_is_emitted (cfg : Config)
    (pixels : Int → Int → Channel → F32) (y x : Int) (z : Channel) (row : List F32)
    (i : Nat) (value : F32)
    (hdef : invalid cfg.default_value = true)
    (hnone : validDirs cfg pixels (x + i) y z = [])
    (hi : row[i]? = some value) (hinv : invalid value = true) :
    (repair cfg pixels y z x row)[i]? = some cfg.default_value ∧
      ∃ v ∈ repair cfg pixels y z x row, invalid v = true := by
  have hout : (repair cfg pixels y z x row)[i]? = some cfg.default_value := by
    rw [repair_getElem?, hi, Option.map_some', repairSample_of_invalid _ _ _ _ _ _ hinv]
    simp [specRepaired, hnone]
  exact ⟨hout, cfg.default_value, List.getElem?_mem hout, hdef⟩

/-- Instance of C13: all eight direction entries zero and `default_value` NaN; the NaN
at index 1 of `exRow` is replaced by the NaN `default_value`. -/
theorem C13_nonfinite_default_is_emitted_witness :
    (invalid exConfigNaNDefault.default_value = true ∧
      validDirs exConfigNaNDefault exPixels (0 + (1 : Nat)) 0 0 = [] ∧
      exRow[1]? = some qnan ∧ invalid qnan = true) ∧
    ((repair exConfigNaNDefault exPixels 0 0 0 exRow)[1]? =
        some exConfigNaNDefault.default_value ∧
      ∃ v ∈ repair exConfigNaNDefault exPixels 0 0 0 exRow, invalid v = true) :=
  ⟨⟨by decide, by decide, by decide, by decide⟩,
    C13_nonfinite_default_is_emitted exConfigNaNDefault exPixels 0 0 0 exRow 1 qnan
      (by decide) (by decide) (by decide) (by decide)⟩

/-- C14. Truncation: the output depends on the matrix only through `int(m)` of each
direction entry.  Two matrices whose direction entries have equal truncations give the
same output for every row and accessor; in particular an entry with `int(m) = 0` can
be replaced by `0.0f`. -/
theorem C14_matrix_only_through_truncation (dv : F32) (m1 m2 : Fin 9 → F32)
    (pixels : Int → Int → Channel → F32) (y x : Int) (z : Channel) (row : List F32)
    (h : ∀ k : Fin 9, k ≠ 4 → toInt (m1 k) = toInt (m2 k)) :
    repair ⟨dv, m1⟩ pixels y z x row = repair ⟨dv, m2⟩ pixels y z x row ∧
    ∀ k : Fin 9, toInt (m1 k) = 0 →
      repair ⟨dv, Function.update m1 k posZero⟩ pixels y z x row =
        repair ⟨dv, m1⟩ pixels y z x row := by
  have key : ∀ a b : Fin 9 → F32, (∀ k : Fin 9, k ≠ 4 → toInt (a k) = toInt (b k)) →
      repair ⟨dv, a⟩ pixels y z x row = repair ⟨dv, b⟩ pixels y z x row := by
    intro a b hab
    apply repair_congr
    intro rowPos value
    simp only [repairSample, finish, sampleAll_congr dv dv a b hab]
  refine ⟨key m1 m2 h, fun k hk => key _ _ ?_⟩
  intro j _
  by_cases hjk : j = k
  · subst hjk
    rw [Function.update_same, hk]
    decide
  · rw [Function.update_noteq hjk]

/-- Instance of C14: entries `1.9f`, `0.5f`, `-0.9f` behave as `1.0f`, `0.0f`, `0.0f`. -/
theorem C14_matrix_only_through_truncation_witness :
    (toInt onePointNine = toInt one ∧ toInt half = toInt posZero ∧
      toInt negPointNine = toInt posZero ∧
      ∀ k : Fin 9, k ≠ 4 → toInt (exConfigFrac.sampleMatrixValues k) =
        toInt (exConfigTrunc.sampleMatrixValues k)) ∧
    (repair ⟨ofNat 9, exConfigFrac.sampleMatrixValues⟩ exPixels 0 0 0 exRow =
        repair ⟨ofNat 9, exConfigTrunc.sampleMatrixValues⟩ exPixels 0 0 0 exRow ∧
      ∀ k : Fin 9, toInt (exConfigFrac.sampleMatrixValues k) = 0 →
        repair ⟨ofNat 9, Function.update exConfigFrac.sampleMatrixValues k posZero⟩
            exPixels 0 0 0 exRow =
          repair ⟨ofNat 9, exConfigFrac.sampleMatrixValues⟩ exPixels 0 0 0 exRow) :=
  ⟨⟨by decide, by decide, by decide, by decide⟩,
    C14_matrix_only_through_truncation (ofNat 9) exConfigFrac.sampleMatrixValues
      exConfigTrunc.sampleMatrixValues exPixels 0 0 0 exRow (by decide)⟩

/-- C15. Default configuration: with the constructor values an invalid sample at
`(col, row)` is repaired from the eight distinct surrounding pixels `(col + dx, row + dy)`,
`dx, dy` in `-1, 0, 1`, `(dx, dy) != (0, 0)`, each read once: the output is the
single-precision mean of the valid ones when there is at least one and the mean is
finite, and `1.0` otherwise. -/
theorem C15_default_configuration (pixels : Int → Int → Channel → F32) (y x : Int)
    (z : Channel) (row : List F32) (i : Nat) (value : F32)
    (hi : row[i]? = some value) (hinv : invalid value = true) :
    (repair Config.initial pixels y z x row)[i]? =
      some (if 0 < (ring8Valid pixels (x + i) y z).length ∧
              invalid (ring8Mean pixels (x + i) y z) = false then
            ring8Mean pixels (x + i) y z
          else one) ∧
    offsets8.Nodup ∧ offsets8.length = 8 ∧
    ∀ dx dy : Int, (dx, dy) ∈ offsets8 ↔
      (-1 ≤ dx ∧ dx ≤ 1 ∧ -1 ≤ dy ∧ dy ≤ 1 ∧ ¬ (dx = 0 ∧ dy = 0)) := by
  refine ⟨?_, by decide, by decide, ?_⟩
  · rw [repair_getElem?, hi, Option.map_some', repairSample_of_invalid _ _ _ _ _ _ hinv,
      specRepaired_initial]
  · intro dx dy
    simp only [offsets8, List.mem_cons, Prod.mk.injEq, List.mem_singleton, List.not_mem_nil,
      or_false]
    omega

/-- Instance of C15: the NaN at index 1 of `exRow`, whose surrounding pixels hold `1.0`
(three times) and `3.0` (three times) and two NaN, is repaired to `2.0`. -/
theorem C15_default_configuration_witness :
    (exRow[1]? = some qnan ∧ invalid qnan = true) ∧
    ((repair Config.initial exPixels 0 0 0 exRow)[1]? =
      some (if 0 < (ring8Valid exPixels (0 + (1 : Nat)) 0 0).length ∧
              invalid (ring8Mean exPixels (0 + (1 : Nat)) 0 0) = false then
            ring8Mean exPixels (0 + (1 : Nat)) 0 0
          else one) ∧
    offsets8.Nodup ∧ offsets8.length = 8 ∧
    ∀ dx dy : Int, (dx, dy) ∈ offsets8 ↔
      (-1 ≤ dx ∧ dx ≤ 1 ∧ -1 ≤ dy ∧ dy ≤ 1 ∧ ¬ (dx = 0 ∧ dy = 0))) ∧
    (repair Config.initial exPixels 0 0 0 exRow)[1]? = some (ofNat 2) :=
  ⟨⟨by decide, by decide⟩,
    C15_default_configuration exPixels 0 0 0 exRow 1 qnan (by decide) (by decide),
    by decide⟩

/-- C16. The replacement does not depend on which invalid value was read: any two invalid
samples (NaN of any payload, `+inf`, `-inf`) at the same position give the same output
sample and, with the rest of the row equal, the same output row. -/
theorem C16_invalid_value_irrelevant (cfg : Config) (pixels : Int → Int → Channel → F32)
    (y x : Int) (z : Channel) (before after : List F32) (v1 v2 : F32)
    (h1 : invalid v1 = true) (h2 : invalid v2 = true) :
    repairSample cfg pixels y z (x + before.length) v1 =
      repairSample cfg pixels y z (x + before.length) v2 ∧
    repair cfg pixels y z x (before ++ v1 :: after) =
      repair cfg pixels y z x (before ++ v2 :: after) := by
  have hs : ∀ rowPos : Int, repairSample cfg pixels y z rowPos v1 =
      repairSample cfg pixels y z rowPos v2 := by
    intro rowPos
    simp [repairSample, h1, h2]
  refine ⟨hs _, ?_⟩
  rw [repair_append, repair_append]
  simp only [repair, hs]

/-- Instance of C16: NaN, `+inf` and `-inf` at index 1 of the scenario of section 8. -/
theorem C16_invalid_value_irrelevant_witness :
    (invalid qnan = true ∧ invalid (infinity false) = true ∧ invalid (infinity true) = true) ∧
    (repairSample exConfigEW exPixels 0 0 (0 + ([one] : List F32).length) qnan =
        repairSample exConfigEW exPixels 0 0 (0 + ([one] : List F32).length) (infinity false) ∧
      repair exConfigEW exPixels 0 0 0 ([one] ++ qnan :: [ofNat 3, ofNat 4, ofNat 5]) =
        repair exConfigEW exPixels 0 0 0
          ([one] ++ infinity false :: [ofNat 3, ofNat 4, ofNat 5])) ∧
    repair exConfigEW exPixels 0 0 0 [one, infinity true, ofNat 3, ofNat 4, ofNat 5] =
      repair exConfigEW exPixels 0 0 0 exRow :=
  ⟨⟨by decide, by decide, by decide⟩,
    C16_invalid_value_irrelevant exConfigEW exPixels 0 0 0 [one]
      [ofNat 3, ofNat 4, ofNat 5] qnan (infinity false) (by decide) (by decide),
    by decide⟩

/-- C17. A negative entry reverses its direction.  For a non-zero integer `d`, an entry
`m` with `int(m) = d` and an entry `mneg` with `int(mneg) = -d` (such as `-m`): only
entry 3 (W) set to `mneg` gives the same output as only entry 5 (E) set to `m` (both read
`(col + d, row)`), and only entry 7 (S) set to `mneg` gives the same output as only entry
1 set to `m` (both read `(col, row - d)`); for finite `m`, `int(-m) = -int(m)`. -/
theorem C17_negative_entry_reverses (dv m mneg : F32) (d : Int)
    (pixels : Int → Int → Channel → F32) (y x : Int) (z : Channel) (row : List F32)
    (_hd0 : d ≠ 0) (hd : toInt m = d) (hneg : toInt mneg = -d) :
    repair ⟨dv, onlyEntry 3 mneg⟩ pixels y z x row =
      repair ⟨dv, onlyEntry 5 m⟩ pixels y z x row ∧
    repair ⟨dv, onlyEntry 7 mneg⟩ pixels y z x row =
      repair ⟨dv, onlyEntry 1 m⟩ pixels y z x row ∧
    (isfinite m = true → toInt (neg m) = -d) := by
  have hnz : (-d = 0) ↔ (d = 0) := by omega
  have e3 : onlyEntry 3 mneg 3 = mneg := by simp [onlyEntry]
  have e5 : onlyEntry 5 m 5 = m := by simp [onlyEntry]
  have e7 : onlyEntry 7 mneg 7 = mneg := by simp [onlyEntry]
  have e1 : onlyEntry 1 m 1 = m := by simp [onlyEntry]
  refine ⟨?_, ?_, fun hf => by rw [toInt_neg m hf, hd]⟩
  · apply repair_congr
    intro rowPos value
    have : sampleAll ⟨dv, onlyEntry 3 mneg⟩ pixels rowPos y z =
        sampleAll ⟨dv, onlyEntry 5 m⟩ pixels rowPos y z := by
      rw [sampleAll_onlyEntry dv mneg 3 (by decide), sampleAll_onlyEntry dv m 5 (by decide)]
      simp only [stepDir, e3, e5]
      have c3 : ∀ t : Int, nbrCoord 3 t rowPos y = (rowPos - t, y) := fun _ => rfl
      have c5 : ∀ t : Int, nbrCoord 5 t rowPos y = (rowPos + t, y) := fun _ => rfl
      simp [block, c3, c5, hd, hneg, hnz]
    simp only [repairSample, finish, this]
  · apply repair_congr
    intro rowPos value
    have : sampleAll ⟨dv, onlyEntry 7 mneg⟩ pixels rowPos y z =
        sampleAll ⟨dv, onlyEntry 1 m⟩ pixels rowPos y z := by
      rw [sampleAll_onlyEntry dv mneg 7 (by decide), sampleAll_onlyEntry dv m 1 (by decide)]
      simp only [stepDir, e7, e1]
      have c7 : ∀ t : Int, nbrCoord 7 t rowPos y = (rowPos, y + t) := fun _ => rfl
      have c1 : ∀ t : Int, nbrCoord 1 t rowPos y = (rowPos, y - t) := fun _ => rfl
      simp [block, c7, c1, hd, hneg, hnz, sub_eq_add_neg]
    simp only [repairSample, finish, this]

/-- Instance of C17 with `d = 2`, `m = 2.0f` and `mneg = -2.0f` on the scenario of
section 8. -/
theorem C17_negative_entry_reverses_witness :
    ((2 : Int) ≠ 0 ∧ toInt (ofNat 2) = 2 ∧ toInt (neg (ofNat 2)) = -2) ∧
    (repair ⟨ofNat 9, onlyEntry 3 (neg (ofNat 2))⟩ exPixels 0 0 0 exRow =
        repair ⟨ofNat 9, onlyEntry 5 (ofNat 2)⟩ exPixels 0 0 0 exRow ∧
      repair ⟨ofNat 9, onlyEntry 7 (neg (ofNat 2))⟩ exPixels 0 0 0 exRow =
        repair ⟨ofNat 9, onlyEntry 1 (ofNat 2)⟩ exPixels 0 0 0 exRow ∧
      (isfinite (ofNat 2) = true → toInt (neg (ofNat 2)) = -2)) ∧
    repair ⟨ofNat 9, onlyEntry 3 (neg (ofNat 2))⟩ exPixels 0 0 0 exRow =
      [one, ofNat 4, ofNat 3, ofNat 4, ofNat 5] :=
  ⟨⟨by decide, by decide, by decide⟩,
    C17_negative_entry_reverses (ofNat 9) (ofNat 2) (neg (ofNat 2)) 2 exPixels 0 0 0 exRow
      (by decide) (by decide) (by decide),
    by decide⟩

end InfiniteNaNKiller
